import Mathlib

/-!
Verification of the distributed-query exchange layer of ArborX
(`ArborX_DetailsDistributedTreeUtils.hpp`, `ArborX_DetailsPermutedData.hpp`)
against its natural-language specification.

Kokkos 1-D views are embedded as Lean `List`s; parallel loops whose
iterations write disjoint index ranges are embedded as sequential folds
over the query range; the MPI `Distributor` collaborator (which the spec
explicitly treats as an external interface) is embedded as an abstract
communication plan: a number of imported items together with, for
each import position, the export position it was taken from.
-/

namespace ArborXSpec

/-! ## Generic list machinery -/

/-- `KokkosExt::exclusive_scan` over a list of counts, with initial value
`acc`: entry `i` of the output is `acc` plus the sum of the first `i`
input entries. -/
def exclusiveScan : Nat → List Nat → List Nat
  | _, [] => []
  | acc, c :: cs => acc :: exclusiveScan (acc + c) cs

/-- Write the elements of `xs` into `buf` at consecutive positions
starting at `p` (out-of-range writes are dropped, as `List.set` is). -/
def writeAt : List α → Nat → List α → List α
  | buf, _, [] => buf
  | buf, p, x :: xs => writeAt (buf.set p x) (p + 1) xs

/-- Sequential embedding of a `parallel_for` over queries `q < n` in which
iteration `q` writes the list `payload q` at positions starting at
`off.getD q 0` of a shared buffer.  The iterations of the source loops
write pairwise disjoint ranges, so the sequential fold is faithful. -/
def writeBlocks (n : Nat) (off : List Nat) (payload : Nat → List α) (buf0 : List α) : List α :=
  (List.range n).foldl (fun b q => writeAt b (off.getD q 0) (payload q)) buf0

/-! ## IndirectView (`ArborX_DetailsPermutedData.hpp`) -/

/-- A 1-D Kokkos view: indexed access (`operator()`) plus an extent. -/
structure View1D (α : Type) where
  vals : Nat → α
  len : Nat

/-- `View::size()`. -/
def View1D.size (v : View1D α) : Nat := v.len

/-- `ArborX::Details::PermutedData<Data, Permute>`: borrows a data view and
a permutation view. -/
structure PermutedData (α : Type) where
  _data : View1D α
  _permute : View1D Nat

/-- `PermutedData::operator()(int i) const { return _data(_permute(i)); }` -/
def PermutedData.call (pd : PermutedData α) (i : Nat) : α :=
  pd._data.vals (pd._permute.vals i)

/-- `PermutedData::size() const { return _data.size(); }` -/
def PermutedData.size (pd : PermutedData α) : Nat := pd._data.size

/-- `AccessTraits<PermutedData, PredicatesTag>::size`:
returns `permuted_predicates._data.size()`. -/
def accessTraitsSize (pd : PermutedData α) : Nat := pd._data.size

/-- `AccessTraits<PermutedData, PredicatesTag>::get`, `AttachIndices = true`
overload: `attach(_data(_permute(index)), (int)index)`; the attach pair is
embedded as a Lean product `(value, attached index)`. -/
def accessTraitsGetAttach (pd : PermutedData α) (index : Nat) : α × Nat :=
  (pd._data.vals (pd._permute.vals index), index)

/-- `AccessTraits<PermutedData, PredicatesTag>::get`, `AttachIndices = false`
overload: `_data(_permute(index))`. -/
def accessTraitsGetPlain (pd : PermutedData α) (index : Nat) : α :=
  pd._data.vals (pd._permute.vals index)

/-! ## Communication plan and `sendAcrossNetwork` -/

/-- Abstract communication plan of the external `Distributor` collaborator:
the number of items this process imports and, for each import position, the
export-buffer position (on the producing process, which in this per-process
embedding is the local export buffer) the item was taken from. -/
structure Plan where
  nImports : Nat
  src : Nat → Nat

/-- The data movement of one 1-D `sendAcrossNetwork` exchange: import
position `j` receives the export-buffer entry at position `plan.src j`. -/
def exchange (d : α) (plan : Plan) (exports : List α) : List α :=
  (List.range plan.nImports).map fun j => exports.getD (plan.src j) d

/-- A multi-dimensional Kokkos view as seen by `sendAcrossNetwork`: the
eight extents (`View::extent(0)` .. `extent(7)`) and the flattened data. -/
structure MDView where
  extents : Fin 8 → Nat
  data : Nat → Int

/-- The `Distributor` as seen by `sendAcrossNetwork`: the plan totals used
in the `ARBORX_ASSERT` plus the abstract item routing. -/
structure Distributor8 where
  totalSendLength : Nat
  totalReceiveLength : Nat
  src : Nat → Nat

/-- `sendAcrossNetwork`: the `ARBORX_ASSERT` of lines 40-48 is embedded as
a guard; `none` is the fatal assertion (nothing is transferred), `some`
carries the import view filled from the export view through the plan. -/
def sendAcrossNetwork (distributor : Distributor8) (exports imports : MDView) :
    Option MDView :=
  if exports.extents 0 = distributor.totalSendLength
      ∧ imports.extents 0 = distributor.totalReceiveLength
      ∧ exports.extents 1 = imports.extents 1
      ∧ exports.extents 2 = imports.extents 2
      ∧ exports.extents 3 = imports.extents 3
      ∧ exports.extents 4 = imports.extents 4
      ∧ exports.extents 5 = imports.extents 5
      ∧ exports.extents 6 = imports.extents 6
      ∧ exports.extents 7 = imports.extents 7 then
    some { imports with data := fun j => exports.data (distributor.src j) }
  else
    none

/-! ## `countResults` -/

/-- `countResults(space, n_queries, query_ids, offset)`: `offset` is
reallocated to length `n_queries + 1` (value-initialized to zero, so its
prior contents are discarded), each identifier atomically increments its
bucket (embedded as a sequential fold, the increments being commutative),
and the counts are exclusive-scanned in place. -/
def countResults (n_queries : Nat) (query_ids : List Nat) (offset : List Nat) :
    List Nat :=
  let realloc := List.replicate (n_queries + 1) 0
  let counts := query_ids.foldl (fun off i => off.set i (off.getD i 0 + 1)) realloc
  exclusiveScan 0 counts

/-- The C3 contract of `countResults`: the produced CSR offset array has
length `n + 1`, starts at 0, ends at the total item count, has per-query
differences equal to the occurrence counts, is non-decreasing, and is
independent of the identifier order and of the prior contents of the
offset argument. -/
def CountResultsSpec (n : Nat) (query_ids offset : List Nat) : Prop :=
  let r := countResults n query_ids offset
  r.length = n + 1
    ∧ r.getD 0 0 = 0
    ∧ r.getD n 0 = query_ids.length
    ∧ (∀ q ∈ List.range n, r.getD (q + 1) 0 = r.getD q 0 + List.count q query_ids)
    ∧ (∀ i j, i ≤ j → j ≤ n → r.getD i 0 ≤ r.getD j 0)
    ∧ (∀ ids2 offset2, List.Perm ids2 query_ids → countResults n ids2 offset2 = r)

/-! ## `sortResults` -/

/-- Modelled from the spec: `ArborX::Details::sortObjects` (from
`ArborX_DetailsSortUtils.hpp`, not part of the extract) sorts the given
buffer ascending and returns the sorting permutation; here only the
returned permutation is needed: the list of positions of the keys buffer
arranged so that the keys read in that arrangement are ascending. -/
def sortObjects (keys : List Nat) : List Nat :=
  (List.range keys.length).mergeSort fun i j => keys.getD i 0 ≤ keys.getD j 0

/-- Modelled from the spec: `ArborX::Details::applyPermutation` (not part
of the extract) reorders a buffer by the sorting permutation, entry `i` of
the result being the source entry at `permutation[i]`. -/
def applyPermutation (perm : List Nat) (v : List Nat) : List Nat :=
  perm.map fun i => v.getD i 0

/-- `sortResults(space, keys, other_views...)`: early-returns when there
are no keys; otherwise sorts a clone of `keys` (leaving `keys` itself
untouched) to obtain the permutation and applies it to every companion
view.  The result is the pair (caller's keys buffer after the call,
companion buffers after the call). -/
def sortResults (keys : List Nat) (other_views : List (List Nat)) :
    List Nat × List (List Nat) :=
  let n := keys.length
  if n = 0 then (keys, other_views)
  else
    let keys_clone := keys
    let permutation := sortObjects keys_clone
    (keys, other_views.map fun v => applyPermutation permutation v)

/-! ## `forwardQueries` -/

/-- The export-rank buffer of `forwardQueries`: allocated with
`n_exports` entries and `deep_copy`-filled with the calling rank. -/
def fq_exportRanks (comm_rank n_exports : Nat) : List Nat :=
  List.replicate n_exports comm_rank

/-- The query export buffer of `forwardQueries`
(`forward_queries_fill_buffer`): for each query `q`, positions
`offset(q) .. offset(q+1)-1` receive `queries(q)`. -/
def fq_exports (queries : List Q) (dQ : Q) (offset : List Nat) (n_exports : Nat) :
    List Q :=
  writeBlocks queries.length offset
    (fun q => List.replicate (offset.getD (q + 1) 0 - offset.getD q 0) (queries.getD q dQ))
    (List.replicate n_exports dQ)

/-- The id export buffer of `forwardQueries`
(`forward_queries_fill_ids`): for each query `q`, positions
`offset(q) .. offset(q+1)-1` receive `q`. -/
def fq_exportIds (n_queries : Nat) (offset : List Nat) (n_exports : Nat) : List Nat :=
  writeBlocks n_queries offset
    (fun q => List.replicate (offset.getD (q + 1) 0 - offset.getD q 0) q)
    (List.replicate n_exports 0)

/-- The `(fwd_queries, fwd_ids, fwd_ranks)` output bindings of
`forwardQueries`. -/
structure FwdResult (Q : Type) where
  fwd_queries : List Q
  fwd_ids : List Nat
  fwd_ranks : List Nat

/-- `forwardQueries(comm, space, queries, indices, offset, ...)`: one
communication plan is built from the flattened destination list `indices`
(`distributor.createFromSends(space, indices)`, embedded as the abstract
`plan`); `n_exports = lastElement(offset)`; the three export buffers are
filled and each is exchanged through that one plan. -/
def forwardQueries (comm_rank : Nat) (plan : Plan) (queries : List Q) (dQ : Q)
    (offset : List Nat) : FwdResult Q :=
  let n_queries := queries.length
  let n_exports := offset.getD (offset.length - 1) 0
  { fwd_queries := exchange dQ plan (fq_exports queries dQ offset n_exports)
    fwd_ids := exchange 0 plan (fq_exportIds n_queries offset n_exports)
    fwd_ranks := exchange 0 plan (fq_exportRanks comm_rank n_exports) }

/-- The C4 contract of `forwardQueries`: the three export buffers all have
length `n_exports` and are built from the same flattened CSR ordering
(position `i` in the query, id and rank buffers carries `queries(q)`, `q`
and the calling rank for the query `q` owning position `i`); all three are
exchanged through the one communication plan, so aligned import positions
describe the same (query, destination) pair; a query with an empty
destination range contributes nothing; zero queries produce empty export
buffers. -/
def ForwardQueriesSpec (comm_rank : Nat) (plan : Plan) (queries : List Q) (dQ : Q)
    (offset : List Nat) : Prop :=
  let n := queries.length
  let nE := offset.getD (offset.length - 1) 0
  (fq_exportRanks comm_rank nE).length = nE
    ∧ (fq_exports queries dQ offset nE).length = nE
    ∧ (fq_exportIds n offset nE).length = nE
    ∧ (∀ i, i < nE → (fq_exportRanks comm_rank nE).getD i 0 = comm_rank)
    ∧ (∀ q ∈ List.range n, ∀ i, offset.getD q 0 ≤ i → i < offset.getD (q + 1) 0 →
        (fq_exports queries dQ offset nE).getD i dQ = queries.getD q dQ
          ∧ (fq_exportIds n offset nE).getD i 0 = q)
    ∧ forwardQueries comm_rank plan queries dQ offset
        = ⟨exchange dQ plan (fq_exports queries dQ offset nE),
           exchange 0 plan (fq_exportIds n offset nE),
           exchange 0 plan (fq_exportRanks comm_rank nE)⟩
    ∧ (∀ j, j < plan.nImports → ∀ q ∈ List.range n,
        offset.getD q 0 ≤ plan.src j → plan.src j < offset.getD (q + 1) 0 →
        (forwardQueries comm_rank plan queries dQ offset).fwd_queries.getD j dQ
            = queries.getD q dQ
          ∧ (forwardQueries comm_rank plan queries dQ offset).fwd_ids.getD j 0 = q
          ∧ (forwardQueries comm_rank plan queries dQ offset).fwd_ranks.getD j 0
            = comm_rank)
    ∧ (∀ qE queries2, queries2.length = queries.length →
        offset.getD qE 0 = offset.getD (qE + 1) 0 →
        (∀ q ∈ List.range n, q ≠ qE → queries2.getD q dQ = queries.getD q dQ) →
        fq_exports queries2 dQ offset nE = fq_exports queries dQ offset nE)
    ∧ (queries = [] → fq_exports queries dQ offset nE = []
        ∧ fq_exportIds n offset nE = [] ∧ fq_exportRanks comm_rank nE = [])

/-! ## `communicateResultsBack` -/

/-- The id export buffer of `communicateResultsBack`
(`ArborX::DistributedTree::query::fill_buffer`): the per-forwarded-query
ids are expanded per-result through the results' CSR offsets — for each
forwarded query `q`, positions `offset(q) .. offset(q+1)-1` receive
`ids(q)`. -/
def crb_exportIds (n_fwd_queries : Nat) (offset ids : List Nat) (n_exports : Nat) :
    List Nat :=
  writeBlocks n_fwd_queries offset
    (fun q => List.replicate (offset.getD (q + 1) 0 - offset.getD q 0) (ids.getD q 0))
    (List.replicate n_exports 0)

/-- The caller-visible bindings after `communicateResultsBack`. -/
structure CrbResult (A D : Type) where
  out : List A
  ranks : List Nat
  ids : List Nat
  distances : Option (List D)

/-- `communicateResultsBack(comm, space, out, offset, ranks, ids,
distances_ptr)`: `n_fwd_queries = offset.extent(0) - 1`,
`n_exports = lastElement(offset)`; one communication plan is built from
`(ranks, offset)` (`distributor.createFromSends`, embedded as the abstract
`plan`; this is the only use the function makes of the input `ranks`
view); the rank payload exported is the calling rank replicated per
result, the id payload is the CSR-expanded original query ids, the result
payload is `out` itself, and, only when a distances buffer is passed, the
distance payload is that buffer; each import replaces the corresponding
caller binding. -/
def communicateResultsBack (comm_rank : Nat) (plan : Plan) (out : List A) (dA : A)
    (offset : List Nat) (ranks ids : List Nat) (distances : Option (List D)) (dD : D) :
    CrbResult A D :=
  let n_fwd_queries := offset.length - 1
  let n_exports := offset.getD n_fwd_queries 0
  let export_ranks := List.replicate n_exports comm_rank
  let import_ranks := exchange 0 plan export_ranks
  let export_ids := crb_exportIds n_fwd_queries offset ids n_exports
  let import_ids := exchange 0 plan export_ids
  let export_out := out
  let import_out := exchange dA plan export_out
  let import_distances := distances.map fun ds => exchange dD plan ds
  { out := import_out, ranks := import_ranks, ids := import_ids,
    distances := import_distances }

/-- The C6 contract of `communicateResultsBack`: the per-result id export
buffer is the per-forwarded-query ids expanded through the results' CSR
offsets; the `out`, `ranks` and `ids` bindings (and `distances`, when
given) are each replaced by the import buffer obtained from the one
communication plan, all of import length `plan.nImports`. -/
def CommunicateResultsBackSpec (comm_rank : Nat) (plan : Plan) (out : List A) (dA : A)
    (offset ranks ids : List Nat) (distances : Option (List D)) (dD : D) : Prop :=
  let nF := offset.length - 1
  let nE := offset.getD nF 0
  let r := communicateResultsBack comm_rank plan out dA offset ranks ids distances dD
  (∀ q ∈ List.range nF, ∀ i, offset.getD q 0 ≤ i → i < offset.getD (q + 1) 0 →
      (crb_exportIds nF offset ids nE).getD i 0 = ids.getD q 0)
    ∧ r.out = exchange dA plan out
    ∧ r.ranks = exchange 0 plan (List.replicate nE comm_rank)
    ∧ r.ids = exchange 0 plan (crb_exportIds nF offset ids nE)
    ∧ (∀ ds, distances = some ds → r.distances = some (exchange dD plan ds))
    ∧ r.out.length = plan.nImports
    ∧ r.ranks.length = plan.nImports
    ∧ r.ids.length = plan.nImports
    ∧ (∀ ds, distances = some ds
        → ∃ l, r.distances = some l ∧ l.length = plan.nImports)

/-! ## `filterResults` -/

/-- A query as inspected by this layer: the only property read is `k`
(`getK(queries(q))`), the requested number of neighbors. -/
structure Query where
  k : Nat

/-- `ArborX::getK`. -/
def getK (q : Query) : Nat := q.k

/-- `PairIndexDistance`: `Kokkos::pair<Kokkos::Array<int, 2>, float>`
holding `((index, rank), distance)`; the `float` distance is embedded as
an `Int` (only order comparisons are performed on it). -/
abbrev PairIndexDistance := (Nat × Nat) × Int

/-- The candidate list of query `q`: the `(indices(i), ranks(i),
distances(i))` triples for `i` in `[lo, hi)`, in buffer order. -/
def candidatesOf (indices ranks : List Nat) (distances : List Int) (lo hi : Nat) :
    List PairIndexDistance :=
  (List.range' lo (hi - lo)).map fun i =>
    ((indices.getD i 0, ranks.getD i 0), distances.getD i 0)

/-- Modelled from the spec: `ArborX::Details::PriorityQueue`
(`ArborX_DetailsPriorityQueue.hpp`, not part of the extract) with the
`CompareDistance` ordering (larger distance means lower priority) pops the
remaining smallest-distance element first; pushing all candidates and then
popping while `count < k` therefore emits `min(count, k)` candidates in
ascending distance order, with ties among equal distances resolved in an
unspecified way — embedded as a stable sort by distance followed by
`take k`. -/
def topCandidates (k : Nat) (cands : List PairIndexDistance) :
    List PairIndexDistance :=
  (cands.mergeSort fun a b => a.2 ≤ b.2).take k

/-- The `(indices, ranks, offset)` bindings after `filterResults`. -/
structure FilterResult where
  indices : List Nat
  ranks : List Nat
  offset : List Nat

/-- `filterResults(space, queries, distances, indices, offset, ranks)`:
`new_offset(q) = min(offset(q+1) - offset(q), getK(queries(q)))` for
`q < n` (entry `n` stays zero-initialized), exclusive-scanned in place;
then, per query with a nonempty candidate range, all candidates are pushed
into the priority queue and the top `min(count, k)` are popped into
`new_indices` / `new_ranks` starting at `new_offset(q)`; the three caller
bindings are replaced by the new arrays. -/
def filterResults (queries : List Query) (distances : List Int)
    (indices : List Nat) (offset : List Nat) (ranks : List Nat) : FilterResult :=
  let n_queries := queries.length
  let truncated_counts :=
    (List.range n_queries).map
      (fun q => min (offset.getD (q + 1) 0 - offset.getD q 0)
        (getK (queries.getD q ⟨0⟩))) ++ [0]
  let new_offset := exclusiveScan 0 truncated_counts
  let n_truncated_results := new_offset.getD (new_offset.length - 1) 0
  let top := fun q =>
    topCandidates (getK (queries.getD q ⟨0⟩))
      (candidatesOf indices ranks distances (offset.getD q 0) (offset.getD (q + 1) 0))
  let new_indices :=
    writeBlocks n_queries new_offset (fun q => (top q).map fun c => c.1.1)
      (List.replicate n_truncated_results 0)
  let new_ranks :=
    writeBlocks n_queries new_offset (fun q => (top q).map fun c => c.1.2)
      (List.replicate n_truncated_results 0)
  { indices := new_indices, ranks := new_ranks, offset := new_offset }

/-- The C1 contract of `filterResults`: the new offset array is the
exclusive scan of the per-query truncated counts (so query `q` keeps
exactly `min(count(q), k(q))` entries, and a query with zero candidates
keeps an empty slice), and the kept entries are the `(index, rank)` pairs
of a smallest-by-distance selection of the candidates, emitted in
ascending distance order: there is an arrangement `sc` of query `q`'s
candidate multiset, sorted ascending by distance, whose first
`min(count(q), k(q))` elements are the emitted slice, every kept element
having distance at most that of every dropped one. -/
def FilterResultsSpec (queries : List Query) (distances : List Int)
    (indices offset ranks : List Nat) : Prop :=
  let n := queries.length
  let r := filterResults queries distances indices offset ranks
  r.offset.length = n + 1
    ∧ r.offset.getD 0 0 = 0
    ∧ r.indices.length = r.offset.getD n 0
    ∧ r.ranks.length = r.offset.getD n 0
    ∧ r.offset = exclusiveScan 0
        ((List.range n).map (fun q => min (offset.getD (q + 1) 0 - offset.getD q 0)
          (getK (queries.getD q ⟨0⟩))) ++ [0])
    ∧ ∀ q ∈ List.range n,
        let k := getK (queries.getD q ⟨0⟩)
        let cnt := offset.getD (q + 1) 0 - offset.getD q 0
        let cands := candidatesOf indices ranks distances (offset.getD q 0)
          (offset.getD (q + 1) 0)
        let sc := cands.mergeSort fun a b => a.2 ≤ b.2
        let m := min cnt k
        r.offset.getD (q + 1) 0 = r.offset.getD q 0 + m
          ∧ List.Perm sc cands
          ∧ List.Pairwise (fun a b : PairIndexDistance => a.2 ≤ b.2) sc
          ∧ (∀ j, j < m →
              r.indices.getD (r.offset.getD q 0 + j) 0 = (sc.getD j ((0, 0), 0)).1.1
                ∧ r.ranks.getD (r.offset.getD q 0 + j) 0 = (sc.getD j ((0, 0), 0)).1.2)
          ∧ (∀ a ∈ sc.take m, ∀ b ∈ sc.drop m, a.2 ≤ b.2)
          ∧ (cnt = 0 → r.offset.getD (q + 1) 0 = r.offset.getD q 0)

/-- A concrete permuted view whose permutation extent (1) differs from its
data extent (3): the permutation selects a strict subset of the data. -/
def pdSubset : PermutedData Nat := ⟨⟨fun i => i + 100, 3⟩, ⟨fun _ => 0, 1⟩⟩

/-! ## Machinery lemmas -/

theorem exclusiveScan_length (acc : Nat) (cs : List Nat) :
    (exclusiveScan acc cs).length = cs.length := by
  induction cs generalizing acc with
  | nil => rfl
  | cons c cs ih => simp [exclusiveScan, ih]

theorem exclusiveScan_getD (acc : Nat) (cs : List Nat) (i : Nat) (hi : i < cs.length) :
    (exclusiveScan acc cs).getD i 0 = acc + (cs.take i).sum := by
  induction cs generalizing acc i with
  | nil => simp at hi
  | cons c cs ih =>
    cases i with
    | zero => simp [exclusiveScan]
    | succ i =>
      have hi' : i < cs.length := Nat.lt_of_succ_lt_succ hi
      rw [exclusiveScan, List.getD_cons_succ, ih (acc + c) i hi', List.take_succ_cons,
        List.sum_cons]
      omega

theorem getD_set_self {l : List α} (h : i < l.length) (a d : α) :
    (l.set i a).getD i d = a := by
  simp [List.getD_eq_getElem?_getD, List.getElem?_set_self h]

theorem getD_set_ne {l : List α} (h : i ≠ j) (a d : α) :
    (l.set i a).getD j d = l.getD j d := by
  simp [List.getD_eq_getElem?_getD, List.getElem?_set_ne h]

theorem getD_map_range (f : Nat → α) (d : α) (h : i < n) :
    ((List.range n).map f).getD i d = f i := by
  simp [List.getD_eq_getElem?_getD, List.getElem?_map, List.getElem?_range h]

theorem getD_replicate (a d : α) (h : i < n) :
    (List.replicate n a).getD i d = a := by
  simp [List.getD_eq_getElem?_getD, List.getElem?_replicate, h]

theorem writeAt_length (buf : List α) (p : Nat) (xs : List α) :
    (writeAt buf p xs).length = buf.length := by
  induction xs generalizing buf p with
  | nil => rfl
  | cons x xs ih => simp [writeAt, ih]

theorem getD_writeAt_lt (buf : List α) (p : Nat) (xs : List α) (d : α) (h : i < p) :
    (writeAt buf p xs).getD i d = buf.getD i d := by
  induction xs generalizing buf p with
  | nil => rfl
  | cons x xs ih =>
    rw [writeAt, ih _ _ (Nat.lt_succ_of_lt h), getD_set_ne (Nat.ne_of_gt h)]

theorem getD_writeAt (buf : List α) (p : Nat) (xs : List α) (d : α)
    (hj : j < xs.length) (hb : p + j < buf.length) :
    (writeAt buf p xs).getD (p + j) d = xs.getD j d := by
  induction xs generalizing buf p j with
  | nil => simp at hj
  | cons x xs ih =>
    cases j with
    | zero =>
      simp only [Nat.add_zero]
      rw [writeAt, getD_writeAt_lt _ _ _ _ (Nat.lt_succ_self p)]
      simpa using getD_set_self (by simpa using hb) x d
    | succ j =>
      have hpj : p + (j + 1) = (p + 1) + j := by omega
      rw [writeAt, hpj]
      exact ih (buf.set p x) (p + 1) (Nat.lt_of_succ_lt_succ hj)
        (by simp only [List.length_set]; omega)

/-- Chained monotonicity of a CSR offset array. -/
theorem offset_chain (off : List Nat) (n : Nat)
    (hmono : ∀ q, q < n → off.getD q 0 ≤ off.getD (q + 1) 0) :
    ∀ b, b ≤ n → ∀ a, a ≤ b → off.getD a 0 ≤ off.getD b 0 := by
  intro b
  induction b with
  | zero =>
    intro _ a ha
    have h0 : a = 0 := Nat.le_zero.mp ha
    subst h0; exact Nat.le_refl _
  | succ b ih =>
    intro hb a ha
    rcases Nat.lt_or_ge a (b + 1) with h | h
    · exact Nat.le_trans (ih (by omega) a (by omega)) (hmono b (by omega))
    · have hab : a = b + 1 := by omega
      subst hab; exact Nat.le_refl _

theorem writeBlocks_succ (n : Nat) (off : List Nat) (payload : Nat → List α)
    (buf0 : List α) :
    writeBlocks (n + 1) off payload buf0
      = writeAt (writeBlocks n off payload buf0) (off.getD n 0) (payload n) := by
  rw [writeBlocks, List.range_succ, List.foldl_append]
  rfl

theorem writeBlocks_length (n : Nat) (off : List Nat) (payload : Nat → List α)
    (buf0 : List α) : (writeBlocks n off payload buf0).length = buf0.length := by
  induction n with
  | zero => rfl
  | succ n ih => rw [writeBlocks_succ, writeAt_length, ih]

theorem writeBlocks_getD (d : α) (n : Nat) (off : List Nat) (payload : Nat → List α)
    (buf0 : List α)
    (hlen : ∀ q, q < n → (payload q).length = off.getD (q + 1) 0 - off.getD q 0)
    (hmono : ∀ q, q < n → off.getD q 0 ≤ off.getD (q + 1) 0)
    (hbuf : off.getD n 0 ≤ buf0.length)
    (hq0 : q0 < n) (hj : j < (payload q0).length) :
    (writeBlocks n off payload buf0).getD (off.getD q0 0 + j) d = (payload q0).getD j d := by
  induction n with
  | zero => omega
  | succ n ih =>
    rw [writeBlocks_succ]
    have hwb : (writeBlocks n off payload buf0).length = buf0.length :=
      writeBlocks_length n off payload buf0
    rcases Nat.lt_or_ge q0 n with h | h
    · have hlt : off.getD q0 0 + j < off.getD n 0 := by
        have h1 : off.getD q0 0 + j < off.getD (q0 + 1) 0 := by
          have := hlen q0 (by omega)
          have := hmono q0 (by omega)
          omega
        have h2 : off.getD (q0 + 1) 0 ≤ off.getD n 0 :=
          offset_chain off n (fun q hq => hmono q (by omega)) n (Nat.le_refl n)
            (q0 + 1) (by omega)
        omega
      rw [getD_writeAt_lt _ _ _ _ hlt]
      exact ih (fun q hq => hlen q (by omega)) (fun q hq => hmono q (by omega))
        (Nat.le_trans (hmono n (Nat.lt_succ_self n)) hbuf) h
    · have hq : q0 = n := by omega
      subst hq
      apply getD_writeAt _ _ _ _ hj
      rw [hwb]
      have := hlen q0 (Nat.lt_succ_self q0)
      have := hmono q0 (Nat.lt_succ_self q0)
      omega

theorem writeBlocks_congr (n : Nat) (off : List Nat) (payload1 payload2 : Nat → List α)
    (buf0 : List α) (h : ∀ q, q < n → payload1 q = payload2 q) :
    writeBlocks n off payload1 buf0 = writeBlocks n off payload2 buf0 := by
  induction n with
  | zero => rfl
  | succ n ih =>
    rw [writeBlocks_succ, writeBlocks_succ, ih (fun q hq => h q (by omega)),
      h n (Nat.lt_succ_self n)]

theorem exchange_length (d : α) (plan : Plan) (exports : List α) :
    (exchange d plan exports).length = plan.nImports := by
  simp [exchange]

theorem exchange_getD (d : α) (plan : Plan) (exports : List α) (hj : j < plan.nImports) :
    (exchange d plan exports).getD j d = exports.getD (plan.src j) d := by
  rw [exchange, getD_map_range _ _ hj]

theorem getD_map_lt (f : α → β) (l : List α) (d : β) (dc : α) (h : j < l.length) :
    (l.map f).getD j d = f (l.getD j dc) := by
  rw [List.getD_eq_getElem?_getD, List.getElem?_map, List.getElem?_eq_getElem h,
    List.getD_eq_getElem l dc h]
  rfl

theorem take_succ_sum (l : List Nat) (q : Nat) (hq : q < l.length) :
    (l.take (q + 1)).sum = (l.take q).sum + l.getD q 0 := by
  rw [List.take_succ, List.sum_append, List.getElem?_eq_getElem hq,
    List.getD_eq_getElem l 0 hq]
  rfl

theorem foldl_inc_length (ids : List Nat) (acc : List Nat) :
    (ids.foldl (fun off i => off.set i (off.getD i 0 + 1)) acc).length = acc.length := by
  induction ids generalizing acc with
  | nil => rfl
  | cons x ids ih => rw [List.foldl_cons, ih, List.length_set]

theorem foldl_inc_getD (ids : List Nat) (acc : List Nat) (q : Nat) (hq : q < acc.length) :
    (ids.foldl (fun off i => off.set i (off.getD i 0 + 1)) acc).getD q 0
      = acc.getD q 0 + List.count q ids := by
  induction ids generalizing acc with
  | nil => simp
  | cons x ids ih =>
    rw [List.foldl_cons]
    have hlen : (acc.set x (acc.getD x 0 + 1)).length = acc.length :=
      List.length_set acc x _
    rw [ih (acc.set x (acc.getD x 0 + 1)) (by omega), List.count_cons]
    rcases eq_or_ne x q with he | hne
    · subst he
      rw [getD_set_self hq]
      simp only [beq_self_eq_true, if_true]
      omega
    · rw [getD_set_ne hne]
      simp only [beq_iff_eq, hne, if_false]
      omega

theorem countResults_counts (n : Nat) (ids : List Nat) :
    ids.foldl (fun off i => off.set i (off.getD i 0 + 1)) (List.replicate (n + 1) 0)
      = (List.range (n + 1)).map fun q => List.count q ids := by
  apply List.ext_getElem
  · rw [foldl_inc_length]; simp
  · intro i h1 h2
    have hi : i < n + 1 := by
      rw [foldl_inc_length, List.length_replicate] at h1; exact h1
    rw [← List.getD_eq_getElem _ 0 h1, ← List.getD_eq_getElem _ 0 h2,
      foldl_inc_getD ids _ i (by simpa using hi), getD_replicate 0 0 hi,
      getD_map_range _ _ hi]
    omega

theorem sum_map_range_finset (f : Nat → Nat) (n : Nat) :
    ((List.range n).map f).sum = ∑ q ∈ Finset.range n, f q := by
  induction n with
  | zero => simp
  | succ n ih =>
    rw [List.range_succ, List.map_append, List.sum_append, Finset.sum_range_succ, ih]
    simp

theorem sum_count_eq_length (n : Nat) (ids : List Nat) (h : ∀ x ∈ ids, x < n) :
    (∑ q ∈ Finset.range n, List.count q ids) = ids.length := by
  induction ids with
  | nil => simp
  | cons x ids ih =>
    have hx : x < n := h x (List.mem_cons_self x ids)
    have hids : ∀ y ∈ ids, y < n := fun y hy => h y (List.mem_cons_of_mem x hy)
    have hcc : ∀ q ∈ Finset.range n,
        List.count q (x :: ids) = List.count q ids + if x = q then 1 else 0 := by
      intro q _
      rw [List.count_cons]
      simp [beq_iff_eq]
    rw [Finset.sum_congr rfl hcc, Finset.sum_add_distrib, ih hids,
      Finset.sum_ite_eq (Finset.range n) x (fun _ => 1)]
    simp [Finset.mem_range.mpr hx]

theorem getD_append_lt (l1 l2 : List α) (d : α) (h : i < l1.length) :
    (l1 ++ l2).getD i d = l1.getD i d := by
  rw [List.getD_eq_getElem?_getD, List.getD_eq_getElem?_getD,
    List.getElem?_append_left h]

theorem getD_take_lt (l : List α) (d : α) (h : i < k) :
    (l.take k).getD i d = l.getD i d := by
  rw [List.getD_eq_getElem?_getD, List.getD_eq_getElem?_getD, List.getElem?_take]
  simp [h]

/-! ## Claim theorems -/

/-- C2 counterexample: the claim that `PermutedData::size()` (member and
AccessTraits form) returns the extent of the permutation fails on the code:
on a permuted view with data extent 3 and permutation extent 1, both return
3, not 1. -/
theorem C2_counterexample :
    ¬ (PermutedData.size pdSubset = View1D.size pdSubset._permute
        ∧ accessTraitsSize pdSubset = View1D.size pdSubset._permute) := by
  decide

/-- C2 (amended): for every `PermutedData`, `size()` — both the member
function and the `AccessTraits` entry point — returns the extent of the
underlying data view, independent of the permutation view (replacing the
permutation by any other view leaves `size()` unchanged). -/
theorem C2_permutedData_size (pd : PermutedData α) (p : View1D Nat) :
    PermutedData.size pd = View1D.size pd._data
      ∧ accessTraitsSize pd = View1D.size pd._data
      ∧ PermutedData.size (⟨pd._data, p⟩ : PermutedData α) = PermutedData.size pd
      ∧ accessTraitsSize (⟨pd._data, p⟩ : PermutedData α) = accessTraitsSize pd :=
  ⟨rfl, rfl, rfl, rfl⟩

/-- C7: for every `PermutedData` and logical index `i`, `operator()` and
both `AccessTraits::get` overloads yield `data[permutation[i]]`, and the
index-attaching overload pairs that value with the logical index `i`
itself.  The embedding is purely functional, so access mutates neither
`data` nor `permutation`. -/
theorem C7_permutedData_access (pd : PermutedData α) (i : Nat) :
    PermutedData.call pd i = pd._data.vals (pd._permute.vals i)
      ∧ accessTraitsGetPlain pd i = pd._data.vals (pd._permute.vals i)
      ∧ accessTraitsGetAttach pd i = (pd._data.vals (pd._permute.vals i), i)
      ∧ (accessTraitsGetAttach pd i).2 = i
      ∧ (accessTraitsGetAttach pd i).1 = PermutedData.call pd i :=
  ⟨rfl, rfl, rfl, rfl, rfl⟩

/-- C8: `sendAcrossNetwork` succeeds exactly when the export buffer's
extent 0 equals the plan's total outgoing count, the import buffer's
extent 0 equals the plan's total incoming count, and extents 1 through 7
of the two buffers match; any violation is the fatal assertion (`none`),
with no data moved. -/
theorem C8_sendAcrossNetwork_asserts (distributor : Distributor8) (e im : MDView) :
    ((sendAcrossNetwork distributor e im).isSome = true
        ↔ e.extents 0 = distributor.totalSendLength
          ∧ im.extents 0 = distributor.totalReceiveLength
          ∧ ∀ j : Fin 8, 0 < j.val → e.extents j = im.extents j)
      ∧ (sendAcrossNetwork distributor e im = none
        ↔ ¬ (e.extents 0 = distributor.totalSendLength
          ∧ im.extents 0 = distributor.totalReceiveLength
          ∧ ∀ j : Fin 8, 0 < j.val → e.extents j = im.extents j)) := by
  have hiff : (e.extents 0 = distributor.totalSendLength
      ∧ im.extents 0 = distributor.totalReceiveLength
      ∧ e.extents 1 = im.extents 1 ∧ e.extents 2 = im.extents 2
      ∧ e.extents 3 = im.extents 3 ∧ e.extents 4 = im.extents 4
      ∧ e.extents 5 = im.extents 5 ∧ e.extents 6 = im.extents 6
      ∧ e.extents 7 = im.extents 7)
      ↔ (e.extents 0 = distributor.totalSendLength
        ∧ im.extents 0 = distributor.totalReceiveLength
        ∧ ∀ j : Fin 8, 0 < j.val → e.extents j = im.extents j) := by
    constructor
    · rintro ⟨h0, h1, h2, h3, h4, h5, h6, h7, h8⟩
      refine ⟨h0, h1, fun j hj => ?_⟩
      fin_cases j
      · exact absurd hj (Nat.lt_irrefl 0)
      · exact h2
      · exact h3
      · exact h4
      · exact h5
      · exact h6
      · exact h7
      · exact h8
    · rintro ⟨h0, h1, hall⟩
      exact ⟨h0, h1, hall 1 (by decide), hall 2 (by decide), hall 3 (by decide),
        hall 4 (by decide), hall 5 (by decide), hall 6 (by decide), hall 7 (by decide)⟩
  rw [sendAcrossNetwork]
  split
  next hc =>
    have hr := hiff.mp hc
    exact ⟨iff_of_true rfl hr, iff_of_false (by simp) (not_not_intro hr)⟩
  next hc =>
    have hr : ¬ (e.extents 0 = distributor.totalSendLength
        ∧ im.extents 0 = distributor.totalReceiveLength
        ∧ ∀ j : Fin 8, 0 < j.val → e.extents j = im.extents j) :=
      fun h => hc (hiff.mpr h)
    exact ⟨iff_of_false (by simp) hr, iff_of_true rfl hr⟩

/-- C8 witness: a concrete matching call passes the assertion. -/
theorem C8_witness :
    (sendAcrossNetwork ⟨2, 3, fun j => j⟩
        ⟨fun j => if j.val = 0 then 2 else 1, fun _ => 0⟩
        ⟨fun j => if j.val = 0 then 3 else 1, fun _ => 0⟩).isSome = true :=
  (C8_sendAcrossNetwork_asserts ⟨2, 3, fun j => j⟩
      ⟨fun j => if j.val = 0 then 2 else 1, fun _ => 0⟩
      ⟨fun j => if j.val = 0 then 3 else 1, fun _ => 0⟩).1.mpr (by decide)

/-- C9: with a null distances pointer, `communicateResultsBack` skips the
distance transfer entirely (the distances binding stays absent) while the
`out`, `ranks` and `ids` transfers are exactly those performed when a
distances buffer is present. -/
theorem C9_crb_none_distances (comm_rank : Nat) (plan : Plan) (out : List A) (dA : A)
    (offset ranks ids : List Nat) (dD : D) (ds : List D) :
    ((communicateResultsBack comm_rank plan out dA offset ranks ids none dD).distances
        = none)
      ∧ ((communicateResultsBack comm_rank plan out dA offset ranks ids none dD).out
        = (communicateResultsBack comm_rank plan out dA offset ranks ids (some ds) dD).out)
      ∧ ((communicateResultsBack comm_rank plan out dA offset ranks ids none dD).ranks
        = (communicateResultsBack comm_rank plan out dA offset ranks ids (some ds) dD).ranks)
      ∧ ((communicateResultsBack comm_rank plan out dA offset ranks ids none dD).ids
        = (communicateResultsBack comm_rank plan out dA offset ranks ids (some ds) dD).ids) :=
  ⟨rfl, rfl, rfl, rfl⟩

/-- C10: the rank payload exported by `communicateResultsBack` is the
answering process's own rank replicated once per outgoing result; the
input `ranks` values are never echoed back (changing them does not change
the received ranks), and every received entry drawn from this process's
export buffer equals the exporter's rank. -/
theorem C10_crb_export_ranks (comm_rank : Nat) (plan : Plan) (out : List A) (dA : A)
    (offset ranks ranks2 ids : List Nat) (distances : Option (List D)) (dD : D) :
    ((communicateResultsBack comm_rank plan out dA offset ranks ids distances dD).ranks
        = exchange 0 plan (List.replicate (offset.getD (offset.length - 1) 0) comm_rank))
      ∧ ((communicateResultsBack comm_rank plan out dA offset ranks2 ids distances dD).ranks
        = (communicateResultsBack comm_rank plan out dA offset ranks ids distances dD).ranks)
      ∧ ∀ j, j < plan.nImports → plan.src j < offset.getD (offset.length - 1) 0 →
          (communicateResultsBack comm_rank plan out dA offset ranks ids distances dD).ranks.getD
            j 0 = comm_rank := by
  refine ⟨rfl, rfl, fun j hj hsrc => ?_⟩
  show (exchange 0 plan
      (List.replicate (offset.getD (offset.length - 1) 0) comm_rank)).getD j 0 = comm_rank
  rw [exchange_getD _ _ _ hj]
  exact getD_replicate _ _ hsrc

/-- C3: for identifiers with values in `[0, n)`, `countResults` builds a
CSR offset array of length `n + 1` that starts at 0, ends at the total
identifier count, whose per-query differences are the occurrence counts,
that is non-decreasing, and that is independent of the identifier order
and of the prior contents of the offset argument (`n == 0` included). -/
theorem C3_countResults (n : Nat) (query_ids offset : List Nat)
    (hvals : ∀ x ∈ query_ids, x < n) : CountResultsSpec n query_ids offset := by
  have hr : countResults n query_ids offset
      = exclusiveScan 0 ((List.range (n + 1)).map fun q => List.count q query_ids) := by
    rw [countResults, countResults_counts]
  have hlenmap : ((List.range (n + 1)).map fun q => List.count q query_ids).length
      = n + 1 := by simp
  have hgetD : ∀ i, i ≤ n → (countResults n query_ids offset).getD i 0
      = ((((List.range (n + 1)).map fun q => List.count q query_ids)).take i).sum := by
    intro i hi
    rw [hr, exclusiveScan_getD 0 _ i (by omega)]
    exact Nat.zero_add _
  have hdiff : ∀ q ∈ List.range n, (countResults n query_ids offset).getD (q + 1) 0
      = (countResults n query_ids offset).getD q 0 + List.count q query_ids := by
    intro q hq
    have hqn : q < n := List.mem_range.mp hq
    rw [hgetD (q + 1) (by omega), hgetD q (by omega), take_succ_sum _ q (by omega),
      getD_map_range _ _ (by omega)]
  refine ⟨?_, ?_, ?_, hdiff, ?_, ?_⟩
  · rw [hr, exclusiveScan_length]
    exact hlenmap
  · rw [hgetD 0 (by omega)]
    simp
  · rw [hgetD n (Nat.le_refl n), ← List.map_take, List.take_range,
      show min n (n + 1) = n by omega, sum_map_range_finset,
      sum_count_eq_length n query_ids hvals]
  · intro i j hij hjn
    refine offset_chain _ n ?_ j hjn i hij
    intro q hq
    rw [hdiff q (List.mem_range.mpr hq)]
    omega
  · intro ids2 offset2 hperm
    rw [hr, countResults, countResults_counts n ids2]
    congr 1
    refine List.map_congr_left ?_
    intro q _
    exact hperm.count_eq q

/-- C3 witness: a concrete run with `n = 3` and identifiers
`[1, 0, 1, 2, 1]` satisfies the contract. -/
theorem C3_witness : CountResultsSpec 3 [1, 0, 1, 2, 1] [9, 9] :=
  C3_countResults 3 [1, 0, 1, 2, 1] [9, 9] (by decide)

/-- C5: `sortResults` derives the ascending sorting permutation of the
keys (a rearrangement of all positions along which the keys read
ascending), applies it to every companion buffer, leaves the caller's keys
buffer unchanged, and is a complete no-op when there are no keys. -/
theorem C5_sortResults (keys : List Nat) (other_views : List (List Nat)) :
    List.Perm (sortObjects keys) (List.range keys.length)
      ∧ List.Pairwise (fun i j => keys.getD i 0 ≤ keys.getD j 0) (sortObjects keys)
      ∧ (sortResults keys other_views).1 = keys
      ∧ (keys.length = 0 → sortResults keys other_views = (keys, other_views))
      ∧ (keys.length ≠ 0 → (sortResults keys other_views).2
          = other_views.map fun v => applyPermutation (sortObjects keys) v) := by
  refine ⟨List.mergeSort_perm _ _, ?_, ?_, ?_, ?_⟩
  · have h := @List.sorted_mergeSort Nat
      (fun i j => decide (keys.getD i 0 ≤ keys.getD j 0))
      (fun a b c hab hbc => by
        simp only [decide_eq_true_eq] at *
        omega)
      (fun a b => by
        simp only [Bool.or_eq_true, decide_eq_true_eq]
        omega)
      (List.range keys.length)
    exact h.imp fun hab => by simpa using hab
  · simp only [sortResults]
    split <;> rfl
  · intro h0
    simp [sortResults, h0]
  · intro hne
    simp [sortResults, hne]

/-- C5 witness: a concrete run on keys `[3, 1, 2]` with two companion
buffers. -/
theorem C5_witness :
    List.Perm (sortObjects [3, 1, 2]) (List.range [3, 1, 2].length)
      ∧ List.Pairwise (fun i j => [3, 1, 2].getD i 0 ≤ [3, 1, 2].getD j 0)
        (sortObjects [3, 1, 2])
      ∧ (sortResults [3, 1, 2] [[10, 20, 30], [7, 8, 9]]).1 = [3, 1, 2]
      ∧ ([3, 1, 2].length = 0 → sortResults [3, 1, 2] [[10, 20, 30], [7, 8, 9]]
          = ([3, 1, 2], [[10, 20, 30], [7, 8, 9]]))
      ∧ ([3, 1, 2].length ≠ 0 → (sortResults [3, 1, 2] [[10, 20, 30], [7, 8, 9]]).2
          = [[10, 20, 30], [7, 8, 9]].map fun v => applyPermutation (sortObjects [3, 1, 2]) v) :=
  C5_sortResults [3, 1, 2] [[10, 20, 30], [7, 8, 9]]

/-- C4: for a well-formed destination CSR, the three export buffers of
`forwardQueries` are built from the same flattened ordering (`queries(q)`,
`q`, and the calling rank at every position of query `q`'s range), all
have length `offset(n)`, and are exchanged through the one communication
plan, so aligned import positions carry the same (query, destination)
pair; empty destination lists contribute nothing and zero queries give
empty buffers. -/
theorem C4_forwardQueries (comm_rank : Nat) (plan : Plan) (queries : List Q) (dQ : Q)
    (offset : List Nat)
    (hlen : offset.length = queries.length + 1)
    (h0 : offset.getD 0 0 = 0)
    (hmono : ∀ q ∈ List.range queries.length,
      offset.getD q 0 ≤ offset.getD (q + 1) 0) :
    ForwardQueriesSpec comm_rank plan queries dQ offset := by
  have hmono' : ∀ q, q < queries.length → offset.getD q 0 ≤ offset.getD (q + 1) 0 :=
    fun q hq => hmono q (List.mem_range.mpr hq)
  have hE : offset.getD (offset.length - 1) 0 = offset.getD queries.length 0 := by
    rw [hlen, Nat.add_sub_cancel]
  have hbufQ : offset.getD queries.length 0
      ≤ (List.replicate (offset.getD (offset.length - 1) 0) dQ).length := by
    rw [List.length_replicate, hE]
  have hbufN : offset.getD queries.length 0
      ≤ (List.replicate (offset.getD (offset.length - 1) 0) (0 : Nat)).length := by
    rw [List.length_replicate, hE]
  have hq_exports : ∀ q, q < queries.length → ∀ i, offset.getD q 0 ≤ i →
      i < offset.getD (q + 1) 0 →
      (fq_exports queries dQ offset (offset.getD (offset.length - 1) 0)).getD i dQ
        = queries.getD q dQ := by
    intro q hq i hlo hhi
    have hi : i = offset.getD q 0 + (i - offset.getD q 0) := by omega
    rw [fq_exports, hi,
      writeBlocks_getD dQ queries.length offset _ _
        (fun q' _ => List.length_replicate _ _) hmono' hbufQ hq
        (by rw [List.length_replicate]; omega)]
    exact getD_replicate _ _ (by omega)
  have hq_ids : ∀ q, q < queries.length → ∀ i, offset.getD q 0 ≤ i →
      i < offset.getD (q + 1) 0 →
      (fq_exportIds queries.length offset (offset.getD (offset.length - 1) 0)).getD i 0
        = q := by
    intro q hq i hlo hhi
    have hi : i = offset.getD q 0 + (i - offset.getD q 0) := by omega
    rw [fq_exportIds, hi,
      writeBlocks_getD 0 queries.length offset _ _
        (fun q' _ => List.length_replicate _ _) hmono' hbufN hq
        (by rw [List.length_replicate]; omega)]
    exact getD_replicate _ _ (by omega)
  have hchain : ∀ q, q < queries.length →
      offset.getD (q + 1) 0 ≤ offset.getD (offset.length - 1) 0 := by
    intro q hq
    rw [hE]
    exact offset_chain offset queries.length hmono' queries.length (Nat.le_refl _)
      (q + 1) (by omega)
  refine ⟨List.length_replicate _ _, ?_, ?_, ?_, ?_, rfl, ?_, ?_, ?_⟩
  · rw [fq_exports, writeBlocks_length, List.length_replicate]
  · rw [fq_exportIds, writeBlocks_length, List.length_replicate]
  · intro i hi
    exact getD_replicate _ _ hi
  · intro q hq i hlo hhi
    have hq' : q < queries.length := List.mem_range.mp hq
    exact ⟨hq_exports q hq' i hlo hhi, hq_ids q hq' i hlo hhi⟩
  · intro j hj q hq hlo hhi
    have hq' : q < queries.length := List.mem_range.mp hq
    have hsrc : plan.src j < offset.getD (offset.length - 1) 0 :=
      Nat.lt_of_lt_of_le hhi (hchain q hq')
    refine ⟨?_, ?_, ?_⟩
    · show (exchange dQ plan (fq_exports queries dQ offset _)).getD j dQ = _
      rw [exchange_getD _ _ _ hj]
      exact hq_exports q hq' _ hlo hhi
    · show (exchange 0 plan (fq_exportIds queries.length offset _)).getD j 0 = _
      rw [exchange_getD _ _ _ hj]
      exact hq_ids q hq' _ hlo hhi
    · show (exchange 0 plan (fq_exportRanks comm_rank _)).getD j 0 = _
      rw [exchange_getD _ _ _ hj]
      exact getD_replicate _ _ hsrc
  · intro qE queries2 hql hempty hsame
    rw [fq_exports, fq_exports, hql]
    refine writeBlocks_congr _ _ _ _ _ ?_
    intro q hq
    rcases eq_or_ne q qE with he | hne
    · subst he
      rw [hempty]
      simp
    · rw [hsame q (List.mem_range.mpr hq) hne]
  · intro hq0
    have hn0 : queries.length = 0 := by rw [hq0]; rfl
    have hnE : offset.getD (offset.length - 1) 0 = 0 := by
      rw [hE, hn0, h0]
    refine ⟨?_, ?_, ?_⟩
    · rw [fq_exports, hn0, hnE]
      rfl
    · rw [fq_exportIds, hn0, hnE]
      rfl
    · rw [fq_exportRanks, hnE]
      rfl

/-- C4 witness: a concrete run with two queries, destination CSR
`[0, 1, 3]`, and a two-import plan. -/
theorem C4_witness : ForwardQueriesSpec 7 ⟨2, fun j => j + 1⟩ [10, 20] 0 [0, 1, 3] :=
  C4_forwardQueries 7 ⟨2, fun j => j + 1⟩ [10, 20] 0 [0, 1, 3] (by decide) (by decide)
    (by decide)

/-- C6: for a well-formed result CSR, the id export buffer of
`communicateResultsBack` carries `ids(q)` at every result position of
forwarded query `q`, and the caller's `out`, `ranks` and `ids` bindings
(and `distances` when a buffer is passed) are each replaced by the import
obtained through the one communication plan, all of length
`plan.nImports`. -/
theorem C6_communicateResultsBack (comm_rank : Nat) (plan : Plan) (out : List A) (dA : A)
    (offset ranks ids : List Nat) (distances : Option (List D)) (dD : D)
    (hmono : ∀ q ∈ List.range (offset.length - 1),
      offset.getD q 0 ≤ offset.getD (q + 1) 0) :
    CommunicateResultsBackSpec comm_rank plan out dA offset ranks ids distances dD := by
  have hmono' : ∀ q, q < offset.length - 1 → offset.getD q 0 ≤ offset.getD (q + 1) 0 :=
    fun q hq => hmono q (List.mem_range.mpr hq)
  have hbuf : offset.getD (offset.length - 1) 0
      ≤ (List.replicate (offset.getD (offset.length - 1) 0) (0 : Nat)).length := by
    rw [List.length_replicate]
  refine ⟨?_, rfl, rfl, rfl, ?_, ?_, ?_, ?_, ?_⟩
  · intro q hq i hlo hhi
    have hq' : q < offset.length - 1 := List.mem_range.mp hq
    have hi : i = offset.getD q 0 + (i - offset.getD q 0) := by omega
    rw [crb_exportIds, hi,
      writeBlocks_getD 0 (offset.length - 1) offset _ _
        (fun q' _ => List.length_replicate _ _) hmono' hbuf hq'
        (by rw [List.length_replicate]; omega)]
    exact getD_replicate _ _ (by omega)
  · intro ds hds
    rw [hds]
    rfl
  · exact exchange_length dA plan out
  · exact exchange_length 0 plan _
  · exact exchange_length 0 plan _
  · intro ds hds
    refine ⟨exchange dD plan ds, ?_, exchange_length dD plan ds⟩
    rw [hds]
    rfl

/-- C6 witness: a concrete run with two forwarded queries, result CSR
`[0, 2, 3]`, and a two-import plan, distances included. -/
theorem C6_witness :
    CommunicateResultsBackSpec 9 ⟨2, fun j => j⟩ [100, 200, 300] 0 [0, 2, 3]
      [1, 1, 0] [55, 66] (some [(4 : Int), 5, 6]) 0 :=
  C6_communicateResultsBack 9 ⟨2, fun j => j⟩ [100, 200, 300] 0 [0, 2, 3]
    [1, 1, 0] [55, 66] (some [(4 : Int), 5, 6]) 0 (by decide)

/-- C1: for a well-formed candidate CSR and per-query requested counts
`k(q) ≥ 1`, `filterResults` produces a new CSR whose offsets are the
exclusive scan of the truncated counts `min(count(q), k(q))`, each query
keeping exactly that many entries; the kept entries are the `(index,
rank)` pairs of the `min(count(q), k(q))` smallest-distance candidates
(ties broken by the arrangement `sc`), emitted in ascending distance
order; a query with zero candidates keeps an empty slice. -/
theorem C1_filterResults (queries : List Query) (distances : List Int)
    (indices offset ranks : List Nat)
    (hofflen : offset.length = queries.length + 1)
    (hmono : ∀ q ∈ List.range queries.length, offset.getD q 0 ≤ offset.getD (q + 1) 0)
    (hk : ∀ q ∈ List.range queries.length, 1 ≤ getK (queries.getD q ⟨0⟩)) :
    FilterResultsSpec queries distances indices offset ranks := by
  have htrans : ∀ a b c : PairIndexDistance,
      (decide (a.2 ≤ b.2)) = true → (decide (b.2 ≤ c.2)) = true
        → (decide (a.2 ≤ c.2)) = true := by
    intro a b c hab hbc
    simp only [decide_eq_true_eq] at *
    omega
  have htotal : ∀ a b : PairIndexDistance,
      ((decide (a.2 ≤ b.2)) || (decide (b.2 ≤ a.2))) = true := by
    intro a b
    simp only [Bool.or_eq_true, decide_eq_true_eq]
    omega
  -- abbreviations: tc = truncated-counts list, no = its exclusive scan
  have htc_len : ((List.range queries.length).map (fun q =>
      min (offset.getD (q + 1) 0 - offset.getD q 0)
        (getK (queries.getD q ⟨0⟩))) ++ [0]).length = queries.length + 1 := by
    simp
  have hno_len : (exclusiveScan 0 ((List.range queries.length).map (fun q =>
      min (offset.getD (q + 1) 0 - offset.getD q 0)
        (getK (queries.getD q ⟨0⟩))) ++ [0])).length = queries.length + 1 := by
    rw [exclusiveScan_length]
    exact htc_len
  have hno_getD : ∀ i, i ≤ queries.length →
      (exclusiveScan 0 ((List.range queries.length).map (fun q =>
        min (offset.getD (q + 1) 0 - offset.getD q 0)
          (getK (queries.getD q ⟨0⟩))) ++ [0])).getD i 0
      = (((List.range queries.length).map (fun q =>
          min (offset.getD (q + 1) 0 - offset.getD q 0)
            (getK (queries.getD q ⟨0⟩))) ++ [0]).take i).sum := by
    intro i hi
    rw [exclusiveScan_getD 0 _ i (by rw [htc_len]; omega)]
    exact Nat.zero_add _
  have htc_getD : ∀ q, q < queries.length →
      (((List.range queries.length).map (fun q =>
        min (offset.getD (q + 1) 0 - offset.getD q 0)
          (getK (queries.getD q ⟨0⟩))) ++ [0])).getD q 0
      = min (offset.getD (q + 1) 0 - offset.getD q 0) (getK (queries.getD q ⟨0⟩)) := by
    intro q hq
    rw [getD_append_lt _ _ _ (by simpa using hq), getD_map_range _ _ hq]
  have hno_diff : ∀ q, q < queries.length →
      (exclusiveScan 0 ((List.range queries.length).map (fun q =>
        min (offset.getD (q + 1) 0 - offset.getD q 0)
          (getK (queries.getD q ⟨0⟩))) ++ [0])).getD (q + 1) 0
      = (exclusiveScan 0 ((List.range queries.length).map (fun q =>
          min (offset.getD (q + 1) 0 - offset.getD q 0)
            (getK (queries.getD q ⟨0⟩))) ++ [0])).getD q 0
        + min (offset.getD (q + 1) 0 - offset.getD q 0) (getK (queries.getD q ⟨0⟩)) := by
    intro q hq
    rw [hno_getD (q + 1) (by omega), hno_getD q (by omega),
      take_succ_sum _ q (by rw [htc_len]; omega), htc_getD q hq]
  have hno_mono : ∀ q, q < queries.length →
      (exclusiveScan 0 ((List.range queries.length).map (fun q =>
        min (offset.getD (q + 1) 0 - offset.getD q 0)
          (getK (queries.getD q ⟨0⟩))) ++ [0])).getD q 0
      ≤ (exclusiveScan 0 ((List.range queries.length).map (fun q =>
          min (offset.getD (q + 1) 0 - offset.getD q 0)
            (getK (queries.getD q ⟨0⟩))) ++ [0])).getD (q + 1) 0 := by
    intro q hq
    rw [hno_diff q hq]
    omega
  have hnT : (exclusiveScan 0 ((List.range queries.length).map (fun q =>
      min (offset.getD (q + 1) 0 - offset.getD q 0)
        (getK (queries.getD q ⟨0⟩))) ++ [0])).getD
      ((exclusiveScan 0 ((List.range queries.length).map (fun q =>
        min (offset.getD (q + 1) 0 - offset.getD q 0)
          (getK (queries.getD q ⟨0⟩))) ++ [0])).length - 1) 0
      = (exclusiveScan 0 ((List.range queries.length).map (fun q =>
        min (offset.getD (q + 1) 0 - offset.getD q 0)
          (getK (queries.getD q ⟨0⟩))) ++ [0])).getD queries.length 0 := by
    rw [hno_len, Nat.add_sub_cancel]
  have hplenI : ∀ q, q < queries.length →
      (((topCandidates (getK (queries.getD q ⟨0⟩))
        (candidatesOf indices ranks distances (offset.getD q 0)
          (offset.getD (q + 1) 0))).map fun c => c.1.1).length)
      = (exclusiveScan 0 ((List.range queries.length).map (fun q =>
          min (offset.getD (q + 1) 0 - offset.getD q 0)
            (getK (queries.getD q ⟨0⟩))) ++ [0])).getD (q + 1) 0
        - (exclusiveScan 0 ((List.range queries.length).map (fun q =>
          min (offset.getD (q + 1) 0 - offset.getD q 0)
            (getK (queries.getD q ⟨0⟩))) ++ [0])).getD q 0 := by
    intro q hq
    rw [List.length_map, topCandidates, List.length_take, List.length_mergeSort,
      candidatesOf, List.length_map, List.length_range', hno_diff q hq,
      Nat.add_sub_cancel_left, inf_eq_min]
    exact Nat.min_comm _ _
  have hplenR : ∀ q, q < queries.length →
      (((topCandidates (getK (queries.getD q ⟨0⟩))
        (candidatesOf indices ranks distances (offset.getD q 0)
          (offset.getD (q + 1) 0))).map fun c => c.1.2).length)
      = (exclusiveScan 0 ((List.range queries.length).map (fun q =>
          min (offset.getD (q + 1) 0 - offset.getD q 0)
            (getK (queries.getD q ⟨0⟩))) ++ [0])).getD (q + 1) 0
        - (exclusiveScan 0 ((List.range queries.length).map (fun q =>
          min (offset.getD (q + 1) 0 - offset.getD q 0)
            (getK (queries.getD q ⟨0⟩))) ++ [0])).getD q 0 := by
    intro q hq
    rw [List.length_map, topCandidates, List.length_take, List.length_mergeSort,
      candidatesOf, List.length_map, List.length_range', hno_diff q hq,
      Nat.add_sub_cancel_left, inf_eq_min]
    exact Nat.min_comm _ _
  have hbuf : (exclusiveScan 0 ((List.range queries.length).map (fun q =>
      min (offset.getD (q + 1) 0 - offset.getD q 0)
        (getK (queries.getD q ⟨0⟩))) ++ [0])).getD queries.length 0
      ≤ (List.replicate ((exclusiveScan 0 ((List.range queries.length).map (fun q =>
          min (offset.getD (q + 1) 0 - offset.getD q 0)
            (getK (queries.getD q ⟨0⟩))) ++ [0])).getD
          ((exclusiveScan 0 ((List.range queries.length).map (fun q =>
            min (offset.getD (q + 1) 0 - offset.getD q 0)
              (getK (queries.getD q ⟨0⟩))) ++ [0])).length - 1) 0) (0 : Nat)).length := by
    rw [List.length_replicate, hnT]
  have hOffEq : (filterResults queries distances indices offset ranks).offset
      = exclusiveScan 0 ((List.range queries.length).map (fun q =>
          min (offset.getD (q + 1) 0 - offset.getD q 0)
            (getK (queries.getD q ⟨0⟩))) ++ [0]) := rfl
  have hIndEq : (filterResults queries distances indices offset ranks).indices
      = writeBlocks queries.length
        (exclusiveScan 0 ((List.range queries.length).map (fun q =>
          min (offset.getD (q + 1) 0 - offset.getD q 0)
            (getK (queries.getD q ⟨0⟩))) ++ [0]))
        (fun q => (topCandidates (getK (queries.getD q ⟨0⟩))
          (candidatesOf indices ranks distances (offset.getD q 0)
            (offset.getD (q + 1) 0))).map fun c => c.1.1)
        (List.replicate ((exclusiveScan 0 ((List.range queries.length).map (fun q =>
            min (offset.getD (q + 1) 0 - offset.getD q 0)
              (getK (queries.getD q ⟨0⟩))) ++ [0])).getD
          ((exclusiveScan 0 ((List.range queries.length).map (fun q =>
            min (offset.getD (q + 1) 0 - offset.getD q 0)
              (getK (queries.getD q ⟨0⟩))) ++ [0])).length - 1) 0) 0) := rfl
  have hRnkEq : (filterResults queries distances indices offset ranks).ranks
      = writeBlocks queries.length
        (exclusiveScan 0 ((List.range queries.length).map (fun q =>
          min (offset.getD (q + 1) 0 - offset.getD q 0)
            (getK (queries.getD q ⟨0⟩))) ++ [0]))
        (fun q => (topCandidates (getK (queries.getD q ⟨0⟩))
          (candidatesOf indices ranks distances (offset.getD q 0)
            (offset.getD (q + 1) 0))).map fun c => c.1.2)
        (List.replicate ((exclusiveScan 0 ((List.range queries.length).map (fun q =>
            min (offset.getD (q + 1) 0 - offset.getD q 0)
              (getK (queries.getD q ⟨0⟩))) ++ [0])).getD
          ((exclusiveScan 0 ((List.range queries.length).map (fun q =>
            min (offset.getD (q + 1) 0 - offset.getD q 0)
              (getK (queries.getD q ⟨0⟩))) ++ [0])).length - 1) 0) 0) := rfl
  refine ⟨?_, ?_, ?_, ?_, hOffEq, ?_⟩
  · rw [hOffEq]
    exact hno_len
  · rw [hOffEq]
    simpa using hno_getD 0 (Nat.zero_le _)
  · rw [hIndEq, hOffEq, writeBlocks_length, List.length_replicate]
    exact hnT
  · rw [hRnkEq, hOffEq, writeBlocks_length, List.length_replicate]
    exact hnT
  · intro q hq
    have hq' : q < queries.length := List.mem_range.mp hq
    have hsorted : List.Pairwise (fun a b : PairIndexDistance => a.2 ≤ b.2)
        ((candidatesOf indices ranks distances (offset.getD q 0)
          (offset.getD (q + 1) 0)).mergeSort fun a b => a.2 ≤ b.2) := by
      have h := @List.sorted_mergeSort PairIndexDistance
        (fun a b => decide (a.2 ≤ b.2)) htrans htotal
        (candidatesOf indices ranks distances (offset.getD q 0)
          (offset.getD (q + 1) 0))
      exact h.imp fun hab => by simpa using hab
    have hsc_len : ((candidatesOf indices ranks distances (offset.getD q 0)
        (offset.getD (q + 1) 0)).mergeSort fun a b => a.2 ≤ b.2).length
        = offset.getD (q + 1) 0 - offset.getD q 0 := by
      rw [List.length_mergeSort, candidatesOf, List.length_map, List.length_range']
    refine ⟨by rw [hOffEq]; exact hno_diff q hq', List.mergeSort_perm _ _, hsorted,
      ?_, ?_, ?_⟩
    · intro j hj
      constructor
      · rw [hIndEq, hOffEq,
          writeBlocks_getD 0 queries.length _ _ _ hplenI hno_mono hbuf hq'
            (by rw [hplenI q hq', hno_diff q hq', Nat.add_sub_cancel_left]; omega),
          getD_map_lt _ _ _ ((0, 0), (0 : Int))
            (by rw [topCandidates, List.length_take, List.length_mergeSort,
              candidatesOf, List.length_map, List.length_range', inf_eq_min]; omega),
          topCandidates, getD_take_lt _ _ (by omega)]
      · rw [hRnkEq, hOffEq,
          writeBlocks_getD 0 queries.length _ _ _ hplenR hno_mono hbuf hq'
            (by rw [hplenR q hq', hno_diff q hq', Nat.add_sub_cancel_left]; omega),
          getD_map_lt _ _ _ ((0, 0), (0 : Int))
            (by rw [topCandidates, List.length_take, List.length_mergeSort,
              candidatesOf, List.length_map, List.length_range', inf_eq_min]; omega),
          topCandidates, getD_take_lt _ _ (by omega)]
    · intro a ha b hb
      have hp2 : List.Pairwise (fun a b : PairIndexDistance => a.2 ≤ b.2)
          ((((candidatesOf indices ranks distances (offset.getD q 0)
            (offset.getD (q + 1) 0)).mergeSort fun a b => a.2 ≤ b.2).take
              (min (offset.getD (q + 1) 0 - offset.getD q 0)
                (getK (queries.getD q ⟨0⟩))))
            ++ (((candidatesOf indices ranks distances (offset.getD q 0)
              (offset.getD (q + 1) 0)).mergeSort fun a b => a.2 ≤ b.2).drop
              (min (offset.getD (q + 1) 0 - offset.getD q 0)
                (getK (queries.getD q ⟨0⟩))))) := by
        rw [List.take_append_drop]
        exact hsorted
      exact (List.pairwise_append.mp hp2).2.2 a ha b hb
    · intro hcnt
      rw [hOffEq, hno_diff q hq', hcnt]
      simp

/-- C1 witness: a concrete run with two queries (`k = 2` over three
candidates, `k = 1` over one candidate). -/
theorem C1_witness :
    FilterResultsSpec [⟨2⟩, ⟨1⟩] [5, 1, 3, 7] [100, 101, 102, 103] [0, 3, 4]
      [7, 8, 9, 6] :=
  C1_filterResults [⟨2⟩, ⟨1⟩] [5, 1, 3, 7] [100, 101, 102, 103] [0, 3, 4] [7, 8, 9, 6]
    (by decide) (by decide) (by decide)

/-- C10 witness: at a concrete input, a received rank entry equals the
exporting process's rank (9), not any of the destination ranks. -/
theorem C10_witness :
    (communicateResultsBack 9 ⟨2, fun j => j⟩ [100, 200, 300] 0
        [0, 2, 3] [1, 1, 0] [55, 66] (some [(4 : Int), 5, 6]) 0).ranks.getD 0 0 = 9 :=
  (C10_crb_export_ranks 9 ⟨2, fun j => j⟩ [100, 200, 300] 0 [0, 2, 3] [1, 1, 0] [1, 1, 0]
      [55, 66] (some [(4 : Int), 5, 6]) 0).2.2 0 (by decide) (by decide)

end ArborXSpec
